import Mathlib

/-!
Shallow embedding of the depth-limited tree-search programs of the repository
(three Python files: `robot_vacuum_cleaner.py`, `warehouse_management.py`,
`investment_management.py`).

All three files share the same data model, which is therefore defined once:

* `BinaryTreeNode` — the class `BinaryTreeNode` (a value plus optional `left`
  and `right` children; a Python `None` child is `Option.none`).  A Lean
  inductive value is finite and cycle-free by construction, matching the
  spec's standing assumption of finite, acyclic trees.
* `Node` — the search-tree class `Node` (a state, an optional parent link, the
  action that produced it, and a `path_cost`).  All path costs occurring in
  the programs are the naturals 0, 1, 2, … so `path_cost` is a `Nat`.
* `DLSResult` — the three-way outcome of `depth_limited_search`.  The Python
  code signals `failure`/`cutoff` through two distinguished sentinel `Node`
  objects compared by identity; the embedding renders the identity-distinct
  sentinels as the distinct constructors `failure` and `cutoff`.

The per-file functions (`actions`, `expand`, `depth_limited_search`,
`depth_limited_search_max`) are embedded in the namespaces `Robot`,
`Warehouse` and `Investment`, one per file.  Values and goals are Python
ints, embedded as `Int`; the `limit` argument is likewise an `Int` (Python
ints are unbounded and may be negative).
-/

/-- The class `BinaryTreeNode` (identical in all three files): a numeric
`value` and optional `left`/`right` children (`None` ↦ `none`). -/
inductive BinaryTreeNode : Type where
  | mk (value : Int) (left : Option BinaryTreeNode) (right : Option BinaryTreeNode)

/-- Field accessor `value`. -/
def BinaryTreeNode.value : BinaryTreeNode → Int
  | .mk v _ _ => v

/-- Field accessor `left`. -/
def BinaryTreeNode.left : BinaryTreeNode → Option BinaryTreeNode
  | .mk _ l _ => l

/-- Field accessor `right`. -/
def BinaryTreeNode.right : BinaryTreeNode → Option BinaryTreeNode
  | .mk _ _ r => r

mutual
/-- Number of nodes of a tree (used only as a termination measure for the
`while frontier:` loops; not part of the Python source). -/
def BinaryTreeNode.size : BinaryTreeNode → Nat
  | .mk _ l r => 1 + BinaryTreeNode.sizeO l + BinaryTreeNode.sizeO r
/-- Number of nodes of an optional tree (`None` has no nodes). -/
def BinaryTreeNode.sizeO : Option BinaryTreeNode → Nat
  | none => 0
  | some t => t.size
end

mutual
/-- Height of a tree counted in edges: a single node has height 0.  Used to
state the spec's "`limit` ≥ tree height" hypotheses. -/
def BinaryTreeNode.heightE : BinaryTreeNode → Nat
  | .mk _ l r => max (BinaryTreeNode.heightO l) (BinaryTreeNode.heightO r)
/-- Contribution of an optional child to the height: an existing child `t`
lies one edge lower, a `None` child contributes 0. -/
def BinaryTreeNode.heightO : Option BinaryTreeNode → Nat
  | none => 0
  | some t => 1 + t.heightE
end

mutual
/-- `t.containsVal g` holds iff some node of `t` carries the value `g`
(the spec's "the goal value is present anywhere in the tree"). -/
def BinaryTreeNode.containsVal (g : Int) : BinaryTreeNode → Bool
  | .mk v l r =>
      v == g || BinaryTreeNode.containsO g l || BinaryTreeNode.containsO g r
/-- `containsVal` lifted to an optional tree (`None` contains nothing). -/
def BinaryTreeNode.containsO (g : Int) : Option BinaryTreeNode → Bool
  | none => false
  | some t => t.containsVal g
end

/-- The search-tree class `Node` (identical in all three files): a state, an
optional `parent` link, the `action` that produced the node (in these
programs an action is the child state itself) and an accumulated
`path_cost`. -/
inductive Node : Type where
  | mk (state : BinaryTreeNode) (parent : Option Node)
       (action : Option BinaryTreeNode) (path_cost : Nat)

/-- Field accessor `state`. -/
def Node.state : Node → BinaryTreeNode
  | .mk s _ _ _ => s

/-- Field accessor `parent`. -/
def Node.parent : Node → Option Node
  | .mk _ p _ _ => p

/-- Field accessor `action`. -/
def Node.action : Node → Option BinaryTreeNode
  | .mk _ _ a _ => a

/-- Field accessor `path_cost`. -/
def Node.path_cost : Node → Nat
  | .mk _ _ _ c => c

/-- `Node.depth` (identical in all three files): walk the `parent` chain and
count the links; a node with no parent has depth 0. -/
def Node.depth : Node → Nat
  | .mk _ none _ _ => 0
  | .mk _ (some p) _ _ => 1 + p.depth

/-- Three-way outcome of `depth_limited_search`: a discovered node, or one of
the two identity-distinct sentinels `failure` / `cutoff`. -/
inductive DLSResult : Type where
  | found (node : Node)
  | failure
  | cutoff

/-- Termination measure for the frontier loops: total number of tree nodes
hanging below the frontier's states. -/
def frontierSize (f : List Node) : Nat :=
  (f.map (fun n => n.state.size)).sum

theorem BinaryTreeNode.size_pos (t : BinaryTreeNode) : 0 < t.size := by
  cases t with
  | mk v l r => simp only [BinaryTreeNode.size]; omega

theorem frontierSize_nil : frontierSize [] = 0 := rfl

theorem frontierSize_cons (n : Node) (f : List Node) :
    frontierSize (n :: f) = n.state.size + frontierSize f := by
  simp [frontierSize]

theorem frontierSize_append (a b : List Node) :
    frontierSize (a ++ b) = frontierSize a + frontierSize b := by
  simp [frontierSize]

theorem frontierSize_reverse (a : List Node) :
    frontierSize a.reverse = frontierSize a := by
  simp [frontierSize, List.sum_reverse]

namespace Robot

/-- `RoomNavigationProblem.actions` (robot_vacuum_cleaner.py, lines 135-145):
the list of existing children, left first.  (`if state.left:` — a
`BinaryTreeNode` object is always truthy, so the test is "left is not
None".) -/
def actions (state : BinaryTreeNode) : List BinaryTreeNode :=
  (match state.left with | some c => [c] | none => [])
    ++ (match state.right with | some c => [c] | none => [])

/-- `expand` (robot_vacuum_cleaner.py, lines 89-96): one child `Node` per
action; `result(s, action) = action`, and `path_cost` is not passed, so it
stays at the constructor default 0. -/
def expand (node : Node) : List Node :=
  (actions node.state).map (fun a => Node.mk a (some node) (some a) 0)

theorem frontierSize_expandR (n : Node) :
    frontierSize (expand n) + 1 = n.state.size := by
  cases n with
  | mk s p a c =>
    cases s with
    | mk v l r =>
      cases l <;> cases r <;>
        simp [expand, actions, frontierSize, Node.state, BinaryTreeNode.left,
          BinaryTreeNode.right, BinaryTreeNode.size, BinaryTreeNode.sizeO] <;>
        omega

/-- `depth_limited_search` (robot_vacuum_cleaner.py, lines 99-125), written as
a recursion on the explicit loop state: the frontier stack (head = top, so
`pop` takes the head and the Python `append`s become a reversed prepend) and
the `result` variable, which is `failure` until a depth cut happens
(`cut = false`) and `cutoff` afterwards (`cut = true`). -/
def loop (goal limit : Int) (frontier : List Node) (cut : Bool) : DLSResult :=
  match frontier with
  | [] => if cut then .cutoff else .failure
  | node :: rest =>
    if node.state.value = goal then .found node
    else if limit ≤ (node.depth : Int) then loop goal limit rest true
    else loop goal limit ((expand node).reverse ++ rest) cut
termination_by frontierSize frontier
decreasing_by
  · have := node.state.size_pos
    simp [frontierSize_cons]; omega
  · have h := frontierSize_expandR node
    simp [frontierSize_cons, frontierSize_append, frontierSize_reverse]
    omega

/-- `depth_limited_search(problem, limit)` for
`RoomNavigationProblem(root, goal)`: frontier starts as
`[Node(problem.initial)]` and `result = failure`. -/
def depth_limited_search (root : BinaryTreeNode) (goal limit : Int) : DLSResult :=
  loop goal limit [Node.mk root none none 0] false

/-- Instrumentation of `loop` (not a function of the Python source): the list
of every `Node` the loop ever appends to the frontier, in push order.  It
follows exactly the control flow of `loop`, which does not depend on the
`result`/`cut` variable. -/
def pushed (goal limit : Int) (frontier : List Node) : List Node :=
  match frontier with
  | [] => []
  | node :: rest =>
    if node.state.value = goal then []
    else if limit ≤ (node.depth : Int) then pushed goal limit rest
    else expand node ++ pushed goal limit ((expand node).reverse ++ rest)
termination_by frontierSize frontier
decreasing_by
  · have := node.state.size_pos
    simp [frontierSize_cons]; omega
  · have h := frontierSize_expandR node
    simp [frontierSize_cons, frontierSize_append, frontierSize_reverse]
    omega

/-- Instrumentation of `loop` (not a function of the Python source): `true`
iff the run pops at least one non-goal node whose depth is ≥ `limit`,
i.e. iff the loop ever executes its `result = cutoff` branch. -/
def anyCut (goal limit : Int) (frontier : List Node) : Bool :=
  match frontier with
  | [] => false
  | node :: rest =>
    if node.state.value = goal then false
    else if limit ≤ (node.depth : Int) then true
    else anyCut goal limit ((expand node).reverse ++ rest)
termination_by frontierSize frontier
decreasing_by
  have h := frontierSize_expandR node
  simp [frontierSize_cons, frontierSize_append, frontierSize_reverse]
  omega

/-- Fuel-indexed rendering of the `while frontier:` loop, used to state
termination: `none` means the fuel ran out before the loop finished.  Each
loop iteration consumes one unit of fuel. -/
def loopFuel (goal limit : Int) : Nat → List Node → Bool → Option DLSResult
  | 0, _, _ => none
  | _ + 1, [], cut => some (if cut then .cutoff else .failure)
  | fuel + 1, node :: rest, cut =>
    if node.state.value = goal then some (.found node)
    else if limit ≤ (node.depth : Int) then loopFuel goal limit fuel rest true
    else loopFuel goal limit fuel ((expand node).reverse ++ rest) cut

end Robot

namespace Warehouse

/-- `WarehouseProblem.actions` (warehouse_management.py, lines 131-140): the
list of children that are not `None`, left first. -/
def actions (state : BinaryTreeNode) : List BinaryTreeNode :=
  (match state.left with | some c => [c] | none => [])
    ++ (match state.right with | some c => [c] | none => [])

/-- `expand` (warehouse_management.py, lines 86-97): one child `Node` per
action, with `path_cost = node.path_cost + 1`. -/
def expand (node : Node) : List Node :=
  (actions node.state).map
    (fun a => Node.mk a (some node) (some a) (node.path_cost + 1))

theorem frontierSize_expandW (n : Node) :
    frontierSize (expand n) + 1 = n.state.size := by
  cases n with
  | mk s p a c =>
    cases s with
    | mk v l r =>
      cases l <;> cases r <;>
        simp [expand, actions, frontierSize, Node.state, BinaryTreeNode.left,
          BinaryTreeNode.right, BinaryTreeNode.size, BinaryTreeNode.sizeO] <;>
        omega

/-- `depth_limited_search` (warehouse_management.py, lines 100-123), written
as a recursion on the explicit loop state, exactly as `Robot.loop`. -/
def loop (goal limit : Int) (frontier : List Node) (cut : Bool) : DLSResult :=
  match frontier with
  | [] => if cut then .cutoff else .failure
  | node :: rest =>
    if node.state.value = goal then .found node
    else if limit ≤ (node.depth : Int) then loop goal limit rest true
    else loop goal limit ((expand node).reverse ++ rest) cut
termination_by frontierSize frontier
decreasing_by
  · have := node.state.size_pos
    simp [frontierSize_cons]; omega
  · have h := frontierSize_expandW node
    simp [frontierSize_cons, frontierSize_append, frontierSize_reverse]
    omega

/-- `depth_limited_search(problem, limit)` for
`WarehouseProblem(initial=root, goal=goal)`. -/
def depth_limited_search (root : BinaryTreeNode) (goal limit : Int) : DLSResult :=
  loop goal limit [Node.mk root none none 0] false

/-- Instrumentation of `Warehouse.loop`: every `Node` appended to the
frontier during the run, in push order. -/
def pushed (goal limit : Int) (frontier : List Node) : List Node :=
  match frontier with
  | [] => []
  | node :: rest =>
    if node.state.value = goal then []
    else if limit ≤ (node.depth : Int) then pushed goal limit rest
    else expand node ++ pushed goal limit ((expand node).reverse ++ rest)
termination_by frontierSize frontier
decreasing_by
  · have := node.state.size_pos
    simp [frontierSize_cons]; omega
  · have h := frontierSize_expandW node
    simp [frontierSize_cons, frontierSize_append, frontierSize_reverse]
    omega

/-- Instrumentation of `Warehouse.loop`: `true` iff the run pops at least one
non-goal node whose depth is ≥ `limit`. -/
def anyCut (goal limit : Int) (frontier : List Node) : Bool :=
  match frontier with
  | [] => false
  | node :: rest =>
    if node.state.value = goal then false
    else if limit ≤ (node.depth : Int) then true
    else anyCut goal limit ((expand node).reverse ++ rest)
termination_by frontierSize frontier
decreasing_by
  have h := frontierSize_expandW node
  simp [frontierSize_cons, frontierSize_append, frontierSize_reverse]
  omega

end Warehouse

namespace Investment

/-- `InvestmentProblem.actions` (investment_management.py, lines 120-129):
the list of children that are not `None`, left first. -/
def actions (state : BinaryTreeNode) : List BinaryTreeNode :=
  (match state.left with | some c => [c] | none => [])
    ++ (match state.right with | some c => [c] | none => [])

/-- `expand` (investment_management.py, lines 75-82): one child `Node` per
action; `path_cost` is not passed, so it stays at the default 0. -/
def expand (node : Node) : List Node :=
  (actions node.state).map (fun a => Node.mk a (some node) (some a) 0)

theorem frontierSize_expandI (n : Node) :
    frontierSize (expand n) + 1 = n.state.size := by
  cases n with
  | mk s p a c =>
    cases s with
    | mk v l r =>
      cases l <;> cases r <;>
        simp [expand, actions, frontierSize, Node.state, BinaryTreeNode.left,
          BinaryTreeNode.right, BinaryTreeNode.size, BinaryTreeNode.sizeO] <;>
        omega

/-- The update `if node.state.value > max_value: max_value = node.state.value`
(investment_management.py, lines 100-102).  The running maximum starts at
`-math.inf`, embedded as `none : Option Int`; every `Int` is greater than
`-inf`, so the update on a `none` maximum always installs the node's
value. -/
def maxUpdate (max_value : Option Int) (v : Int) : Option Int :=
  match max_value with
  | none => some v
  | some m => if v > m then some v else some m

/-- The `while frontier:` loop of `depth_limited_search_max`
(investment_management.py, lines 97-108). -/
def loop (limit : Int) (frontier : List Node) (max_value : Option Int) :
    Option Int :=
  match frontier with
  | [] => max_value
  | node :: rest =>
    if (node.depth : Int) < limit then
      loop limit ((expand node).reverse ++ rest)
        (maxUpdate max_value node.state.value)
    else loop limit rest (maxUpdate max_value node.state.value)
termination_by frontierSize frontier
decreasing_by
  · have h := frontierSize_expandI node
    simp [frontierSize_cons, frontierSize_append, frontierSize_reverse]
    omega
  · have := node.state.size_pos
    simp [frontierSize_cons]; omega

/-- `depth_limited_search_max(problem, limit)` (investment_management.py,
lines 85-111): `None` when `problem.initial is None`; otherwise run the loop
from `[Node(problem.initial)]` with `max_value = -math.inf`.  The source's
final `None if max_value == -math.inf else max_value` is the identity on the
`Option Int` encoding of the running maximum. -/
def depth_limited_search_max (initial : Option BinaryTreeNode) (limit : Int) :
    Option Int :=
  match initial with
  | none => none
  | some root => loop limit [Node.mk root none none 0] none

/-- Instrumentation of `Investment.loop`: every `Node` appended to the
frontier during the run, in push order (the control flow of the loop does
not depend on `max_value`). -/
def pushed (limit : Int) (frontier : List Node) : List Node :=
  match frontier with
  | [] => []
  | node :: rest =>
    if (node.depth : Int) < limit then
      expand node ++ pushed limit ((expand node).reverse ++ rest)
    else pushed limit rest
termination_by frontierSize frontier
decreasing_by
  · have h := frontierSize_expandI node
    simp [frontierSize_cons, frontierSize_append, frontierSize_reverse]
    omega
  · have := node.state.size_pos
    simp [frontierSize_cons]; omega

/-- Fuel-indexed rendering of the `while frontier:` loop of
`depth_limited_search_max`: `none` means the fuel ran out.  Each iteration
consumes one unit of fuel. -/
def loopFuel (limit : Int) : Nat → List Node → Option Int → Option (Option Int)
  | 0, _, _ => none
  | _ + 1, [], max_value => some max_value
  | fuel + 1, node :: rest, max_value =>
    if (node.depth : Int) < limit then
      loopFuel limit fuel ((expand node).reverse ++ rest)
        (maxUpdate max_value node.state.value)
    else loopFuel limit fuel rest (maxUpdate max_value node.state.value)

end Investment

/-- Forget all `path_cost` annotations along a search node's parent chain.
`Robot.expand` and `Warehouse.expand` build the same nodes up to this
erasure, which is the basis of the equivalence of the two
`depth_limited_search` functions. -/
def eraseCost : Node → Node
  | .mk s none a _ => .mk s none a 0
  | .mk s (some p) a _ => .mk s (some (eraseCost p)) a 0

/-- `c` is a child state of `p` in the tree: `p.left` or `p.right` is `c`. -/
def IsChildOf (c p : BinaryTreeNode) : Prop :=
  p.left = some c ∨ p.right = some c

/-- A search node is a well-formed path witness for the tree `t`: following
its parent links reaches a parentless node whose state is `t`, and each
state along the chain is a child (left or right) of its parent's state. -/
def ValidChain (t : BinaryTreeNode) : Node → Prop
  | .mk s none _ _ => s = t
  | .mk s (some p) _ _ => IsChildOf s p.state ∧ ValidChain t p

mutual
/-- Spec-side description of the depth-bounded node set: `valuesUpTo k t`
lists the values of all nodes of `t` whose depth below `t`'s root is at most
`k`.  The root value is always listed (depth 0); the children's subtrees
contribute, with budget `k - 1`, exactly when `1 ≤ k`. -/
def valuesUpTo (k : Int) : BinaryTreeNode → List Int
  | .mk v l r =>
      v :: (if 1 ≤ k then valuesO (k - 1) l ++ valuesO (k - 1) r else [])
/-- `valuesUpTo` lifted to an optional tree (`None` contributes nothing). -/
def valuesO (k : Int) : Option BinaryTreeNode → List Int
  | none => []
  | some t => valuesUpTo k t
end

/-- Outcome classification used to compare the robot and warehouse searches:
the two programs' results are identified when both fail, both cut off, or
both return nodes carrying the same state. -/
inductive Outcome : Type where
  | foundState (s : BinaryTreeNode)
  | failure
  | cutoff

/-- Map a search result to its outcome classification. -/
def classify : DLSResult → Outcome
  | .found g => .foundState g.state
  | .failure => .failure
  | .cutoff => .cutoff

/-- Apply a node transformation under `DLSResult.found`. -/
def mapResult (f : Node → Node) : DLSResult → DLSResult
  | .found g => .found (f g)
  | .failure => .failure
  | .cutoff => .cutoff

/-- The demonstration tree of robot_vacuum_cleaner.py / warehouse_management.py
(`main`, lines 157-161):
`root=1(left=2(left=None,right=4), right=3(left=5,right=None))`. -/
def exampleTree : BinaryTreeNode :=
  .mk 1 (some (.mk 2 none (some (.mk 4 none none))))
        (some (.mk 3 (some (.mk 5 none none)) none))

/-- The demonstration tree of investment_management.py (`main`, lines
143-147): `root=3(left=1(left=0,right=None), right=5(left=4,right=6))`. -/
def investTree : BinaryTreeNode :=
  .mk 3 (some (.mk 1 (some (.mk 0 none none)) none))
        (some (.mk 5 (some (.mk 4 none none)) (some (.mk 6 none none))))

/-- The search node that `depth_limited_search(problem, 2)` returns on
`exampleTree` with goal 4: state is the tree node `4`, reached through its
parent `2`, which hangs off the root search node. -/
def exampleGoalNode : Node :=
  Node.mk (.mk 4 none none)
    (some (Node.mk (.mk 2 none (some (.mk 4 none none)))
      (some (Node.mk exampleTree none none 0))
      (some (.mk 2 none (some (.mk 4 none none)))) 0))
    (some (.mk 4 none none)) 0

/-! ### Basic facts about the data model -/

theorem Node.state_mk (s p a c) : (Node.mk s p a c).state = s := rfl

theorem Node.parent_mk (s p a c) : (Node.mk s p a c).parent = p := rfl

theorem Node.path_cost_mk (s p a c) : (Node.mk s p a c).path_cost = c := rfl

theorem Node.depth_mk_none (s a c) : (Node.mk s none a c).depth = 0 := rfl

theorem Node.depth_mk_some (s p a c) :
    (Node.mk s (some p) a c).depth = 1 + p.depth := rfl

theorem BinaryTreeNode.value_mk (v l r) : (BinaryTreeNode.mk v l r).value = v := rfl

theorem BinaryTreeNode.left_mk (v l r) : (BinaryTreeNode.mk v l r).left = l := rfl

theorem BinaryTreeNode.right_mk (v l r) : (BinaryTreeNode.mk v l r).right = r := rfl

/-! ### Facts about `Robot.actions` and `Robot.expand` -/

theorem Robot.mem_actions {a : BinaryTreeNode} {s : BinaryTreeNode} :
    a ∈ Robot.actions s ↔ (s.left = some a ∨ s.right = some a) := by
  cases s with
  | mk v l r =>
    cases l <;> cases r <;>
      simp [Robot.actions, BinaryTreeNode.left_mk, BinaryTreeNode.right_mk,
        eq_comm]

theorem Robot.mem_expand_robot {c n : Node} :
    c ∈ Robot.expand n ↔
      ∃ a ∈ Robot.actions n.state, c = Node.mk a (some n) (some a) 0 := by
  simp [Robot.expand, List.mem_map, eq_comm]

theorem Robot.depth_of_mem_expand_robot {c n : Node} (hc : c ∈ Robot.expand n) :
    c.depth = 1 + n.depth := by
  rcases Robot.mem_expand_robot.1 hc with ⟨a, _, rfl⟩
  exact Node.depth_mk_some _ _ _ _

/-! ### Soundness of `Robot.loop`: a returned node carries the goal value -/

theorem Robot.loop_found_value {goal limit : Int} :
    ∀ (f : List Node) (cut : Bool) (g : Node),
      Robot.loop goal limit f cut = .found g → g.state.value = goal := by
  intro f cut
  induction f, cut using Robot.loop.induct goal limit with
  | case1 => intro g h; simp [Robot.loop] at h
  | case2 cut hcut => intro g h; simp [Robot.loop, hcut] at h
  | case3 cut node rest hval =>
    intro g h
    simp [Robot.loop, hval] at h
    subst h; exact hval
  | case4 cut node rest hval hdep ih =>
    intro g h
    simp [Robot.loop, hval, hdep] at h
    exact ih g h
  | case5 cut node rest hval hdep ih =>
    intro g h
    simp [Robot.loop, hval, hdep] at h
    exact ih g h

theorem Robot.state_of_mem_expand {c n : Node} (hc : c ∈ Robot.expand n) :
    c.state ∈ Robot.actions n.state := by
  rcases Robot.mem_expand_robot.1 hc with ⟨a, ha, rfl⟩
  simpa [Node.state_mk] using ha

theorem Robot.mem_expand_of_action {a : BinaryTreeNode} {n : Node}
    (ha : a ∈ Robot.actions n.state) :
    Node.mk a (some n) (some a) 0 ∈ Robot.expand n :=
  Robot.mem_expand_robot.2 ⟨a, ha, rfl⟩

/-! ### Facts about height and containment -/

theorem BinaryTreeNode.heightE_mk (v l r) :
    (BinaryTreeNode.mk v l r).heightE =
      max (BinaryTreeNode.heightO l) (BinaryTreeNode.heightO r) := by
  simp [BinaryTreeNode.heightE]

theorem Robot.heightE_of_mem_actions {a s : BinaryTreeNode}
    (h : a ∈ Robot.actions s) : 1 + a.heightE ≤ s.heightE := by
  cases s with
  | mk v l r =>
    rw [BinaryTreeNode.heightE_mk]
    rcases Robot.mem_actions.1 h with hl | hr
    · rw [BinaryTreeNode.left_mk] at hl
      subst hl
      exact le_max_of_le_left (by simp [BinaryTreeNode.heightO])
    · rw [BinaryTreeNode.right_mk] at hr
      subst hr
      exact le_max_of_le_right (by simp [BinaryTreeNode.heightO])

theorem BinaryTreeNode.children_of_heightE_zero {v : Int}
    {l r : Option BinaryTreeNode}
    (h : (BinaryTreeNode.mk v l r).heightE = 0) : l = none ∧ r = none := by
  cases l <;> cases r <;>
    simp [BinaryTreeNode.heightE_mk, BinaryTreeNode.heightO] at h ⊢

theorem BinaryTreeNode.containsVal_of_value {g : Int} {s : BinaryTreeNode}
    (h : s.value = g) : s.containsVal g = true := by
  cases s with
  | mk v l r =>
    rw [BinaryTreeNode.value_mk] at h
    simp [BinaryTreeNode.containsVal, h]

theorem BinaryTreeNode.containsVal_leaf {g v : Int} :
    (BinaryTreeNode.mk v none none).containsVal g = (v == g) := by
  simp [BinaryTreeNode.containsVal, BinaryTreeNode.containsO]

theorem BinaryTreeNode.contains_iff_actions {g : Int} {s : BinaryTreeNode}
    (hv : s.value ≠ g) :
    (s.containsVal g = true) ↔
      ∃ a ∈ Robot.actions s, a.containsVal g = true := by
  cases s with
  | mk v l r =>
    rw [BinaryTreeNode.value_mk] at hv
    cases l <;> cases r <;>
      simp [BinaryTreeNode.containsVal, BinaryTreeNode.containsO, Robot.actions,
        BinaryTreeNode.left_mk, BinaryTreeNode.right_mk, hv]

/-! ### Completeness of `Robot.loop` under a sufficiently large limit -/

theorem Robot.loop_complete {goal limit : Int} :
    ∀ (f : List Node) (cut : Bool),
      (∀ n ∈ f, (n.depth : Int) + n.state.heightE ≤ limit) →
      ((∃ g, Robot.loop goal limit f cut = .found g) ↔
        ∃ n ∈ f, n.state.containsVal goal = true) := by
  intro f cut
  induction f, cut using Robot.loop.induct goal limit with
  | case1 => intro _; simp [Robot.loop]
  | case2 cut hcut => intro _; simp [Robot.loop, hcut]
  | case3 cut node rest hval =>
    intro _
    simp only [Robot.loop, hval, if_true]
    constructor
    · intro _
      exact ⟨node, List.mem_cons_self _ _,
        BinaryTreeNode.containsVal_of_value hval⟩
    · intro _
      exact ⟨node, by simp [hval]⟩
  | case4 cut node rest hval hdep ih =>
    intro hpre
    have hnode := hpre node (List.mem_cons_self _ _)
    have hzero : node.state.heightE = 0 := by
      have := Int.natCast_nonneg node.depth
      omega
    have hleaf : node.state.containsVal goal = false := by
      cases hst : node.state with
      | mk v l r =>
        rw [hst] at hzero
        obtain ⟨hl, hr⟩ := BinaryTreeNode.children_of_heightE_zero hzero
        subst hl; subst hr
        rw [BinaryTreeNode.containsVal_leaf]
        have : v ≠ goal := by
          intro h; exact hval (by rw [hst, BinaryTreeNode.value_mk, h])
        simpa using this
    have hrest : ∀ n ∈ rest, (n.depth : Int) + n.state.heightE ≤ limit :=
      fun n hn => hpre n (List.mem_cons_of_mem _ hn)
    rw [show Robot.loop goal limit (node :: rest) cut
          = Robot.loop goal limit rest true by
        simp [Robot.loop, hval, hdep]]
    rw [ih hrest]
    constructor
    · intro ⟨n, hn, hc⟩; exact ⟨n, List.mem_cons_of_mem _ hn, hc⟩
    · intro ⟨n, hn, hc⟩
      rcases List.mem_cons.1 hn with rfl | hn'
      · rw [hleaf] at hc; cases hc
      · exact ⟨n, hn', hc⟩
  | case5 cut node rest hval hdep ih =>
    intro hpre
    have hnode := hpre node (List.mem_cons_self _ _)
    have hpre' : ∀ n ∈ (Robot.expand node).reverse ++ rest,
        (n.depth : Int) + n.state.heightE ≤ limit := by
      intro n hn
      rcases List.mem_append.1 hn with hn' | hn'
      · have hn'' := List.mem_reverse.1 hn'
        have hd := Robot.depth_of_mem_expand_robot hn''
        have hh := Robot.heightE_of_mem_actions (Robot.state_of_mem_expand hn'')
        rw [hd]
        push_cast
        omega
      · exact hpre n (List.mem_cons_of_mem _ hn')
    rw [show Robot.loop goal limit (node :: rest) cut
          = Robot.loop goal limit ((Robot.expand node).reverse ++ rest) cut by
        simp [Robot.loop, hval, hdep]]
    rw [ih hpre']
    constructor
    · intro ⟨n, hn, hc⟩
      rcases List.mem_append.1 hn with hn' | hn'
      · have hn'' := List.mem_reverse.1 hn'
        refine ⟨node, List.mem_cons_self _ _, ?_⟩
        rw [BinaryTreeNode.contains_iff_actions hval]
        exact ⟨n.state, Robot.state_of_mem_expand hn'', hc⟩
      · exact ⟨n, List.mem_cons_of_mem _ hn', hc⟩
    · intro ⟨n, hn, hc⟩
      rcases List.mem_cons.1 hn with rfl | hn'
      · rcases (BinaryTreeNode.contains_iff_actions hval).1 hc with ⟨a, ha, hac⟩
        refine ⟨Node.mk a (some n) (some a) 0, ?_, ?_⟩
        · exact List.mem_append.2 (Or.inl
            (List.mem_reverse.2 (Robot.mem_expand_of_action ha)))
        · simpa [Node.state_mk] using hac
      · exact ⟨n, List.mem_append.2 (Or.inr hn'), hc⟩

/-! ### The `result` flag: `cutoff` is returned iff some pop was depth-cut -/

theorem Robot.loop_cutoff_iff_anyCut {goal limit : Int} :
    ∀ (f : List Node) (cut : Bool),
      (∀ g, Robot.loop goal limit f cut ≠ .found g) →
      (Robot.loop goal limit f cut = .cutoff ↔
        (cut || Robot.anyCut goal limit f) = true) := by
  intro f cut
  induction f, cut using Robot.loop.induct goal limit with
  | case1 => intro _; simp [Robot.loop, Robot.anyCut]
  | case2 cut hcut => intro _; simp [Robot.loop, Robot.anyCut, hcut]
  | case3 cut node rest hval =>
    intro h
    exact absurd (by simp [Robot.loop, hval]) (h node)
  | case4 cut node rest hval hdep ih =>
    intro h
    have hloop : Robot.loop goal limit (node :: rest) cut
        = Robot.loop goal limit rest true := by simp [Robot.loop, hval, hdep]
    have hcut' : Robot.loop goal limit rest true = .cutoff := by
      rw [(ih (fun g hg => h g (by rw [hloop]; exact hg)))]
      simp
    rw [hloop, hcut']
    simp [Robot.anyCut, hval, hdep]
  | case5 cut node rest hval hdep ih =>
    intro h
    have hloop : Robot.loop goal limit (node :: rest) cut
        = Robot.loop goal limit ((Robot.expand node).reverse ++ rest) cut := by
      simp [Robot.loop, hval, hdep]
    rw [hloop, ih (fun g hg => h g (by rw [hloop]; exact hg))]
    simp [Robot.anyCut, hval, hdep]

/-! ### Facts about `Warehouse.actions` / `Warehouse.expand` and the
`Investment` counterparts (the three `actions` functions are identical) -/

theorem Warehouse.warehouse_actions_eq_robot : Warehouse.actions = Robot.actions := rfl

theorem Investment.invest_actions_eq_robot : Investment.actions = Robot.actions := rfl

theorem Warehouse.mem_expand_warehouse {c n : Node} :
    c ∈ Warehouse.expand n ↔
      ∃ a ∈ Warehouse.actions n.state,
        c = Node.mk a (some n) (some a) (n.path_cost + 1) := by
  simp [Warehouse.expand, List.mem_map, eq_comm]

theorem Warehouse.depth_of_mem_expand_warehouse {c n : Node}
    (hc : c ∈ Warehouse.expand n) : c.depth = 1 + n.depth := by
  rcases Warehouse.mem_expand_warehouse.1 hc with ⟨a, _, rfl⟩
  exact Node.depth_mk_some _ _ _ _

theorem Investment.mem_expand_invest {c n : Node} :
    c ∈ Investment.expand n ↔
      ∃ a ∈ Investment.actions n.state, c = Node.mk a (some n) (some a) 0 := by
  simp [Investment.expand, List.mem_map, eq_comm]

theorem Investment.depth_of_mem_expand_invest {c n : Node}
    (hc : c ∈ Investment.expand n) : c.depth = 1 + n.depth := by
  rcases Investment.mem_expand_invest.1 hc with ⟨a, _, rfl⟩
  exact Node.depth_mk_some _ _ _ _

/-! ### Every node pushed onto a frontier respects the depth limit -/

theorem Robot.pushed_depth_le_robot {goal limit : Int} :
    ∀ (f : List Node), ∀ p ∈ Robot.pushed goal limit f,
      (p.depth : Int) ≤ limit := by
  intro f
  induction f using Robot.pushed.induct goal limit with
  | case1 => simp [Robot.pushed]
  | case2 node rest hval =>
    simp [Robot.pushed, hval]
  | case3 node rest hval hdep ih =>
    intro p hp
    rw [show Robot.pushed goal limit (node :: rest)
          = Robot.pushed goal limit rest by simp [Robot.pushed, hval, hdep]]
      at hp
    exact ih p hp
  | case4 node rest hval hdep ih =>
    intro p hp
    rw [show Robot.pushed goal limit (node :: rest)
          = Robot.expand node
            ++ Robot.pushed goal limit ((Robot.expand node).reverse ++ rest) by
        simp [Robot.pushed, hval, hdep]] at hp
    rcases List.mem_append.1 hp with hp' | hp'
    · rw [Robot.depth_of_mem_expand_robot hp']
      push_cast
      omega
    · exact ih p hp'

theorem Warehouse.pushed_depth_le_warehouse {goal limit : Int} :
    ∀ (f : List Node), ∀ p ∈ Warehouse.pushed goal limit f,
      (p.depth : Int) ≤ limit := by
  intro f
  induction f using Warehouse.pushed.induct goal limit with
  | case1 => simp [Warehouse.pushed]
  | case2 node rest hval =>
    simp [Warehouse.pushed, hval]
  | case3 node rest hval hdep ih =>
    intro p hp
    rw [show Warehouse.pushed goal limit (node :: rest)
          = Warehouse.pushed goal limit rest by
        simp [Warehouse.pushed, hval, hdep]] at hp
    exact ih p hp
  | case4 node rest hval hdep ih =>
    intro p hp
    rw [show Warehouse.pushed goal limit (node :: rest)
          = Warehouse.expand node
            ++ Warehouse.pushed goal limit
                ((Warehouse.expand node).reverse ++ rest) by
        simp [Warehouse.pushed, hval, hdep]] at hp
    rcases List.mem_append.1 hp with hp' | hp'
    · rw [Warehouse.depth_of_mem_expand_warehouse hp']
      push_cast
      omega
    · exact ih p hp'

theorem Investment.pushed_depth_le_invest {limit : Int} :
    ∀ (f : List Node), ∀ p ∈ Investment.pushed limit f,
      (p.depth : Int) ≤ limit := by
  intro f
  induction f using Investment.pushed.induct limit with
  | case1 => simp [Investment.pushed]
  | case2 node rest hdep ih =>
    intro p hp
    rw [show Investment.pushed limit (node :: rest)
          = Investment.expand node
            ++ Investment.pushed limit
                ((Investment.expand node).reverse ++ rest) by
        simp [Investment.pushed, hdep]] at hp
    rcases List.mem_append.1 hp with hp' | hp'
    · rw [Investment.depth_of_mem_expand_invest hp']
      push_cast
      omega
    · exact ih p hp'
  | case3 node rest hdep ih =>
    intro p hp
    rw [show Investment.pushed limit (node :: rest)
          = Investment.pushed limit rest by simp [Investment.pushed, hdep]]
      at hp
    exact ih p hp

/-! ### Path costs in the warehouse search equal depths -/

theorem Warehouse.path_cost_of_mem_expand_warehouse {c n : Node}
    (hc : c ∈ Warehouse.expand n) : c.path_cost = n.path_cost + 1 := by
  rcases Warehouse.mem_expand_warehouse.1 hc with ⟨a, _, rfl⟩
  exact Node.path_cost_mk _ _ _ _

theorem Robot.path_cost_of_mem_expand_robot {c n : Node}
    (hc : c ∈ Robot.expand n) : c.path_cost = 0 := by
  rcases Robot.mem_expand_robot.1 hc with ⟨a, _, rfl⟩
  exact Node.path_cost_mk _ _ _ _

theorem Warehouse.pushed_cost_eq_depth {goal limit : Int} :
    ∀ (f : List Node), (∀ n ∈ f, n.path_cost = n.depth) →
      ∀ p ∈ Warehouse.pushed goal limit f, p.path_cost = p.depth := by
  intro f
  induction f using Warehouse.pushed.induct goal limit with
  | case1 => simp [Warehouse.pushed]
  | case2 node rest hval =>
    simp [Warehouse.pushed, hval]
  | case3 node rest hval hdep ih =>
    intro hpre p hp
    rw [show Warehouse.pushed goal limit (node :: rest)
          = Warehouse.pushed goal limit rest by
        simp [Warehouse.pushed, hval, hdep]] at hp
    exact ih (fun n hn => hpre n (List.mem_cons_of_mem _ hn)) p hp
  | case4 node rest hval hdep ih =>
    intro hpre p hp
    have hnode := hpre node (List.mem_cons_self _ _)
    have hchild : ∀ c ∈ Warehouse.expand node, c.path_cost = c.depth := by
      intro c hc
      rw [Warehouse.path_cost_of_mem_expand_warehouse hc, Warehouse.depth_of_mem_expand_warehouse hc,
        hnode]
      omega
    rw [show Warehouse.pushed goal limit (node :: rest)
          = Warehouse.expand node
            ++ Warehouse.pushed goal limit
                ((Warehouse.expand node).reverse ++ rest) by
        simp [Warehouse.pushed, hval, hdep]] at hp
    rcases List.mem_append.1 hp with hp' | hp'
    · exact hchild p hp'
    · refine ih ?_ p hp'
      intro n hn
      rcases List.mem_append.1 hn with hn' | hn'
      · exact hchild n (List.mem_reverse.1 hn')
      · exact hpre n (List.mem_cons_of_mem _ hn')

/-! ### Erasing path costs: the robot and warehouse loops simulate each
other -/

theorem eraseCost_mk_none (s a c) :
    eraseCost (Node.mk s none a c) = Node.mk s none a 0 := by
  simp [eraseCost]

theorem eraseCost_mk_some (s p a c) :
    eraseCost (Node.mk s (some p) a c) = Node.mk s (some (eraseCost p)) a 0 := by
  simp [eraseCost]

theorem eraseCost_state (n : Node) : (eraseCost n).state = n.state := by
  cases n with
  | mk s p a c =>
    cases p
    · rw [eraseCost_mk_none]; rfl
    · rw [eraseCost_mk_some]; rfl

theorem eraseCost_depth : ∀ n : Node, (eraseCost n).depth = n.depth := by
  intro n
  induction n using eraseCost.induct with
  | case1 s a c => rw [eraseCost_mk_none]; rfl
  | case2 s p a c ih =>
    rw [eraseCost_mk_some, Node.depth_mk_some, Node.depth_mk_some, ih]

theorem Warehouse.expand_map_erase (n : Node) :
    (Warehouse.expand n).map eraseCost = Robot.expand (eraseCost n) := by
  rw [Warehouse.expand, Robot.expand, List.map_map, eraseCost_state,
    Warehouse.warehouse_actions_eq_robot]
  exact List.map_congr_left (fun a _ => eraseCost_mk_some _ _ _ _)

theorem Warehouse.loop_erase {goal limit : Int} :
    ∀ (f : List Node) (cut : Bool),
      Robot.loop goal limit (f.map eraseCost) cut
        = mapResult eraseCost (Warehouse.loop goal limit f cut) := by
  intro f cut
  induction f, cut using Warehouse.loop.induct goal limit with
  | case1 => simp [Warehouse.loop, Robot.loop, mapResult]
  | case2 cut hcut => simp [Warehouse.loop, Robot.loop, mapResult, hcut]
  | case3 cut node rest hval =>
    simp [Warehouse.loop, Robot.loop, mapResult, eraseCost_state, hval]
  | case4 cut node rest hval hdep ih =>
    simp only [List.map_cons]
    rw [show Robot.loop goal limit (eraseCost node :: rest.map eraseCost) cut
          = Robot.loop goal limit (rest.map eraseCost) true by
        simp [Robot.loop, eraseCost_state, eraseCost_depth, hval, hdep]]
    rw [show Warehouse.loop goal limit (node :: rest) cut
          = Warehouse.loop goal limit rest true by
        simp [Warehouse.loop, hval, hdep]]
    exact ih
  | case5 cut node rest hval hdep ih =>
    simp only [List.map_cons]
    rw [show Robot.loop goal limit (eraseCost node :: rest.map eraseCost) cut
          = Robot.loop goal limit
              ((Robot.expand (eraseCost node)).reverse ++ rest.map eraseCost)
              cut by
        simp [Robot.loop, eraseCost_state, eraseCost_depth, hval, hdep]]
    rw [show Warehouse.loop goal limit (node :: rest) cut
          = Warehouse.loop goal limit
              ((Warehouse.expand node).reverse ++ rest) cut by
        simp [Warehouse.loop, hval, hdep]]
    rw [← Warehouse.expand_map_erase, ← List.map_reverse, ← List.map_append]
    exact ih

theorem Warehouse.anyCut_erase {goal limit : Int} :
    ∀ (f : List Node),
      Robot.anyCut goal limit (f.map eraseCost)
        = Warehouse.anyCut goal limit f := by
  intro f
  induction f using Warehouse.anyCut.induct goal limit with
  | case1 => simp [Warehouse.anyCut, Robot.anyCut]
  | case2 node rest hval =>
    simp [Warehouse.anyCut, Robot.anyCut, eraseCost_state, hval]
  | case3 node rest hval hdep =>
    simp [Warehouse.anyCut, Robot.anyCut, eraseCost_state, eraseCost_depth,
      hval, hdep]
  | case4 node rest hval hdep ih =>
    simp only [List.map_cons]
    rw [show Robot.anyCut goal limit (eraseCost node :: rest.map eraseCost)
          = Robot.anyCut goal limit
              ((Robot.expand (eraseCost node)).reverse ++ rest.map eraseCost) by
        simp [Robot.anyCut, eraseCost_state, eraseCost_depth, hval, hdep]]
    rw [show Warehouse.anyCut goal limit (node :: rest)
          = Warehouse.anyCut goal limit
              ((Warehouse.expand node).reverse ++ rest) by
        simp [Warehouse.anyCut, hval, hdep]]
    rw [← Warehouse.expand_map_erase, ← List.map_reverse, ← List.map_append]
    exact ih

/-! ### A found node is a well-formed path witness -/

theorem ValidChain_mk_none {t s a c} :
    ValidChain t (Node.mk s none a c) ↔ s = t := by
  simp [ValidChain]

theorem ValidChain_mk_some {t s p a c} :
    ValidChain t (Node.mk s (some p) a c) ↔
      IsChildOf s p.state ∧ ValidChain t p := by
  simp [ValidChain]

theorem Robot.loop_found_valid {t : BinaryTreeNode} {goal limit : Int} :
    ∀ (f : List Node) (cut : Bool),
      (∀ n ∈ f, ValidChain t n ∧ (n.depth : Int) ≤ limit) →
      ∀ g, Robot.loop goal limit f cut = .found g →
        ValidChain t g ∧ (g.depth : Int) ≤ limit := by
  intro f cut
  induction f, cut using Robot.loop.induct goal limit with
  | case1 => intro _ g hg; simp [Robot.loop] at hg
  | case2 cut hcut => intro _ g hg; simp [Robot.loop, hcut] at hg
  | case3 cut node rest hval =>
    intro hpre g hg
    simp [Robot.loop, hval] at hg
    subst hg
    exact hpre node (List.mem_cons_self _ _)
  | case4 cut node rest hval hdep ih =>
    intro hpre g hg
    simp [Robot.loop, hval, hdep] at hg
    exact ih (fun n hn => hpre n (List.mem_cons_of_mem _ hn)) g hg
  | case5 cut node rest hval hdep ih =>
    intro hpre g hg
    simp [Robot.loop, hval, hdep] at hg
    have hnode := hpre node (List.mem_cons_self _ _)
    refine ih ?_ g hg
    intro n hn
    rcases List.mem_append.1 hn with hn' | hn'
    · rcases Robot.mem_expand_robot.1 (List.mem_reverse.1 hn') with ⟨a, ha, rfl⟩
      constructor
      · rw [ValidChain_mk_some]
        exact ⟨Robot.mem_actions.1 ha, hnode.1⟩
      · rw [Node.depth_mk_some]
        push_cast
        omega
    · exact hpre n (List.mem_cons_of_mem _ hn')

theorem Robot.loop_found_chain {t : BinaryTreeNode} {goal limit : Int} :
    ∀ (f : List Node) (cut : Bool),
      (∀ n ∈ f, ValidChain t n) →
      ∀ g, Robot.loop goal limit f cut = .found g → ValidChain t g := by
  intro f cut
  induction f, cut using Robot.loop.induct goal limit with
  | case1 => intro _ g hg; simp [Robot.loop] at hg
  | case2 cut hcut => intro _ g hg; simp [Robot.loop, hcut] at hg
  | case3 cut node rest hval =>
    intro hpre g hg
    simp [Robot.loop, hval] at hg
    subst hg
    exact hpre node (List.mem_cons_self _ _)
  | case4 cut node rest hval hdep ih =>
    intro hpre g hg
    simp [Robot.loop, hval, hdep] at hg
    exact ih (fun n hn => hpre n (List.mem_cons_of_mem _ hn)) g hg
  | case5 cut node rest hval hdep ih =>
    intro hpre g hg
    simp [Robot.loop, hval, hdep] at hg
    have hnode := hpre node (List.mem_cons_self _ _)
    refine ih ?_ g hg
    intro n hn
    rcases List.mem_append.1 hn with hn' | hn'
    · rcases Robot.mem_expand_robot.1 (List.mem_reverse.1 hn') with ⟨a, ha, rfl⟩
      rw [ValidChain_mk_some]
      exact ⟨Robot.mem_actions.1 ha, hnode⟩
    · exact hpre n (List.mem_cons_of_mem _ hn')

/-! ### Facts about `valuesUpTo` -/

theorem valuesUpTo_mk (k : Int) (v l r) :
    valuesUpTo k (BinaryTreeNode.mk v l r) =
      v :: (if 1 ≤ k then valuesO (k - 1) l ++ valuesO (k - 1) r else []) := by
  simp [valuesUpTo]

theorem value_mem_valuesUpTo (k : Int) (t : BinaryTreeNode) :
    t.value ∈ valuesUpTo k t := by
  cases t with
  | mk v l r => rw [valuesUpTo_mk, BinaryTreeNode.value_mk]; exact List.mem_cons_self _ _

theorem valuesUpTo_of_nonpos {k : Int} (h : ¬ 1 ≤ k) (t : BinaryTreeNode) :
    valuesUpTo k t = [t.value] := by
  cases t with
  | mk v l r => rw [valuesUpTo_mk, BinaryTreeNode.value_mk, if_neg h]

theorem mem_valuesUpTo_iff {k : Int} (h : 1 ≤ k) {x : Int}
    {t : BinaryTreeNode} :
    x ∈ valuesUpTo k t ↔
      x = t.value ∨
        ∃ a ∈ Investment.actions t, x ∈ valuesUpTo (k - 1) a := by
  cases t with
  | mk v l r =>
    rw [valuesUpTo_mk, BinaryTreeNode.value_mk, if_pos h,
      Investment.invest_actions_eq_robot]
    cases l <;> cases r <;>
      simp [valuesO, Robot.actions, BinaryTreeNode.left_mk,
        BinaryTreeNode.right_mk]

/-! ### The investment loop computes the maximum of the visited values -/

theorem Investment.maxUpdate_spec (mv : Option Int) (v : Int) :
    ∃ m', Investment.maxUpdate mv v = some m' ∧ v ≤ m' ∧
      ∀ m, mv = some m → m ≤ m' := by
  cases mv with
  | none => exact ⟨v, rfl, le_refl v, by simp⟩
  | some m =>
    by_cases h : v > m
    · exact ⟨v, by simp [Investment.maxUpdate, h], le_refl v,
        by simp; omega⟩
    · exact ⟨m, by simp [Investment.maxUpdate, h], by omega, by simp⟩

theorem Investment.maxUpdate_cases {mv : Option Int} {v M : Int}
    (h : Investment.maxUpdate mv v = some M) : mv = some M ∨ M = v := by
  cases mv with
  | none =>
    simp [Investment.maxUpdate] at h
    exact Or.inr h.symm
  | some m =>
    by_cases hvm : v > m <;> simp [Investment.maxUpdate, hvm] at h
    · exact Or.inr h.symm
    · exact Or.inl (by rw [h])

theorem Investment.loop_spec {limit : Int} :
    ∀ (f : List Node) (mv : Option Int),
      (∀ m, mv = some m →
         ∃ M, Investment.loop limit f mv = some M ∧ m ≤ M) ∧
      (∀ n ∈ f, ∀ v ∈ valuesUpTo (limit - n.depth) n.state,
         ∃ M, Investment.loop limit f mv = some M ∧ v ≤ M) ∧
      (∀ M, Investment.loop limit f mv = some M →
         mv = some M ∨
           ∃ n ∈ f, M ∈ valuesUpTo (limit - n.depth) n.state) := by
  intro f mv
  induction f, mv using Investment.loop.induct limit with
  | case1 mv =>
    refine ⟨fun m hm => ⟨m, by simp [Investment.loop, hm], le_refl m⟩,
      by simp, fun M hM => Or.inl (by simpa [Investment.loop] using hM)⟩
  | case2 mv node rest hdep ih =>
    obtain ⟨ih1, ih2, ih3⟩ := ih
    obtain ⟨m', hm'eq, hm'v, hm'mono⟩ :=
      Investment.maxUpdate_spec mv node.state.value
    have hk : (1 : Int) ≤ limit - node.depth := by omega
    have heq : Investment.loop limit (node :: rest) mv
        = Investment.loop limit ((Investment.expand node).reverse ++ rest)
            (Investment.maxUpdate mv node.state.value) := by
      simp [Investment.loop, hdep]
    refine ⟨?_, ?_, ?_⟩
    · intro m hm
      obtain ⟨M, hM, hmM⟩ := ih1 m' hm'eq
      exact ⟨M, by rw [heq]; exact hM, le_trans (hm'mono m hm) hmM⟩
    · intro n hn v hv
      rcases List.mem_cons.1 hn with rfl | hn'
      · rcases (mem_valuesUpTo_iff hk).1 hv with rfl | ⟨a, ha, hva⟩
        · obtain ⟨M, hM, hmM⟩ := ih1 m' hm'eq
          exact ⟨M, by rw [heq]; exact hM, le_trans hm'v hmM⟩
        · have hc : Node.mk a (some n) (some a) 0 ∈ Investment.expand n := by
            exact Investment.mem_expand_invest.2 ⟨a, ha, rfl⟩
          have hcmem : Node.mk a (some n) (some a) 0
              ∈ (Investment.expand n).reverse ++ rest :=
            List.mem_append.2 (Or.inl (List.mem_reverse.2 hc))
          have hvc : v ∈ valuesUpTo
              (limit - (Node.mk a (some n) (some a) 0).depth)
              (Node.mk a (some n) (some a) 0).state := by
            rw [Node.depth_mk_some, Node.state_mk]
            have : limit - ((1 + n.depth : Nat) : Int)
                = limit - n.depth - 1 := by push_cast; ring
            rw [this]
            exact hva
          obtain ⟨M, hM, hvM⟩ := ih2 _ hcmem v hvc
          exact ⟨M, by rw [heq]; exact hM, hvM⟩
      · obtain ⟨M, hM, hvM⟩ :=
          ih2 n (List.mem_append.2 (Or.inr hn')) v hv
        exact ⟨M, by rw [heq]; exact hM, hvM⟩
    · intro M hM
      rw [heq] at hM
      rcases ih3 M hM with hup | ⟨n, hn, hnv⟩
      · rcases Investment.maxUpdate_cases hup with hmv | rfl
        · exact Or.inl hmv
        · exact Or.inr ⟨node, List.mem_cons_self _ _,
            value_mem_valuesUpTo _ _⟩
      · rcases List.mem_append.1 hn with hn' | hn'
        · rcases Investment.mem_expand_invest.1 (List.mem_reverse.1 hn')
            with ⟨a, ha, rfl⟩
          refine Or.inr ⟨node, List.mem_cons_self _ _, ?_⟩
          rw [Node.depth_mk_some, Node.state_mk] at hnv
          refine (mem_valuesUpTo_iff hk).2 (Or.inr ⟨a, ha, ?_⟩)
          have : limit - ((1 + node.depth : Nat) : Int)
              = limit - node.depth - 1 := by push_cast; ring
          rwa [this] at hnv
        · exact Or.inr ⟨n, List.mem_cons_of_mem _ hn', hnv⟩
  | case3 mv node rest hdep ih =>
    obtain ⟨ih1, ih2, ih3⟩ := ih
    obtain ⟨m', hm'eq, hm'v, hm'mono⟩ :=
      Investment.maxUpdate_spec mv node.state.value
    have hk : ¬ (1 : Int) ≤ limit - node.depth := by omega
    have heq : Investment.loop limit (node :: rest) mv
        = Investment.loop limit rest
            (Investment.maxUpdate mv node.state.value) := by
      simp [Investment.loop, hdep]
    refine ⟨?_, ?_, ?_⟩
    · intro m hm
      obtain ⟨M, hM, hmM⟩ := ih1 m' hm'eq
      exact ⟨M, by rw [heq]; exact hM, le_trans (hm'mono m hm) hmM⟩
    · intro n hn v hv
      rcases List.mem_cons.1 hn with rfl | hn'
      · rw [valuesUpTo_of_nonpos hk] at hv
        rcases List.mem_singleton.1 hv with rfl
        obtain ⟨M, hM, hmM⟩ := ih1 m' hm'eq
        exact ⟨M, by rw [heq]; exact hM, le_trans hm'v hmM⟩
      · obtain ⟨M, hM, hvM⟩ := ih2 n hn' v hv
        exact ⟨M, by rw [heq]; exact hM, hvM⟩
    · intro M hM
      rw [heq] at hM
      rcases ih3 M hM with hup | ⟨n, hn, hnv⟩
      · rcases Investment.maxUpdate_cases hup with hmv | rfl
        · exact Or.inl hmv
        · exact Or.inr ⟨node, List.mem_cons_self _ _,
            value_mem_valuesUpTo _ _⟩
      · exact Or.inr ⟨n, List.mem_cons_of_mem _ hn, hnv⟩

/-! ### Fuel adequacy: the loops finish within `frontierSize + 1` iterations -/

theorem Robot.loopFuel_spec_robot {goal limit : Int} :
    ∀ (f : List Node) (cut : Bool), ∀ k : Nat, frontierSize f < k →
      Robot.loopFuel goal limit k f cut
        = some (Robot.loop goal limit f cut) := by
  intro f cut
  induction f, cut using Robot.loop.induct goal limit with
  | case1 =>
    intro k hk
    cases k with
    | zero => simp [frontierSize_nil] at hk
    | succ j => simp [Robot.loopFuel, Robot.loop]
  | case2 cut hcut =>
    intro k hk
    cases k with
    | zero => simp [frontierSize_nil] at hk
    | succ j => simp [Robot.loopFuel, Robot.loop]
  | case3 cut node rest hval =>
    intro k hk
    cases k with
    | zero =>
      rw [frontierSize_cons] at hk
      omega
    | succ j => simp [Robot.loopFuel, Robot.loop, hval]
  | case4 cut node rest hval hdep ih =>
    intro k hk
    cases k with
    | zero =>
      rw [frontierSize_cons] at hk
      omega
    | succ j =>
      have hsz := node.state.size_pos
      rw [frontierSize_cons] at hk
      rw [show Robot.loopFuel goal limit (j + 1) (node :: rest) cut
            = Robot.loopFuel goal limit j rest true by
          simp [Robot.loopFuel, hval, hdep]]
      rw [show Robot.loop goal limit (node :: rest) cut
            = Robot.loop goal limit rest true by simp [Robot.loop, hval, hdep]]
      exact ih j (by omega)
  | case5 cut node rest hval hdep ih =>
    intro k hk
    cases k with
    | zero =>
      rw [frontierSize_cons] at hk
      omega
    | succ j =>
      have hsz := Robot.frontierSize_expandR node
      rw [frontierSize_cons] at hk
      rw [show Robot.loopFuel goal limit (j + 1) (node :: rest) cut
            = Robot.loopFuel goal limit j
                ((Robot.expand node).reverse ++ rest) cut by
          simp [Robot.loopFuel, hval, hdep]]
      rw [show Robot.loop goal limit (node :: rest) cut
            = Robot.loop goal limit ((Robot.expand node).reverse ++ rest) cut by
          simp [Robot.loop, hval, hdep]]
      refine ih j ?_
      rw [frontierSize_append, frontierSize_reverse]
      omega

theorem Investment.loopFuel_spec_invest {limit : Int} :
    ∀ (f : List Node) (mv : Option Int), ∀ k : Nat, frontierSize f < k →
      Investment.loopFuel limit k f mv
        = some (Investment.loop limit f mv) := by
  intro f mv
  induction f, mv using Investment.loop.induct limit with
  | case1 mv =>
    intro k hk
    cases k with
    | zero => simp [frontierSize_nil] at hk
    | succ j => simp [Investment.loopFuel, Investment.loop]
  | case2 mv node rest hdep ih =>
    intro k hk
    cases k with
    | zero =>
      rw [frontierSize_cons] at hk
      omega
    | succ j =>
      have hsz := Investment.frontierSize_expandI node
      rw [frontierSize_cons] at hk
      rw [show Investment.loopFuel limit (j + 1) (node :: rest) mv
            = Investment.loopFuel limit j
                ((Investment.expand node).reverse ++ rest)
                (Investment.maxUpdate mv node.state.value) by
          simp [Investment.loopFuel, hdep]]
      rw [show Investment.loop limit (node :: rest) mv
            = Investment.loop limit ((Investment.expand node).reverse ++ rest)
                (Investment.maxUpdate mv node.state.value) by
          simp [Investment.loop, hdep]]
      refine ih j ?_
      rw [frontierSize_append, frontierSize_reverse]
      omega
  | case3 mv node rest hdep ih =>
    intro k hk
    cases k with
    | zero =>
      rw [frontierSize_cons] at hk
      omega
    | succ j =>
      have hsz := node.state.size_pos
      rw [frontierSize_cons] at hk
      rw [show Investment.loopFuel limit (j + 1) (node :: rest) mv
            = Investment.loopFuel limit j rest
                (Investment.maxUpdate mv node.state.value) by
          simp [Investment.loopFuel, hdep]]
      rw [show Investment.loop limit (node :: rest) mv
            = Investment.loop limit rest
                (Investment.maxUpdate mv node.state.value) by
          simp [Investment.loop, hdep]]
      exact ih j (by omega)

/-! ### Bridging lemmas between the two existence searches, and concrete
evaluations used by the witnesses -/

theorem Warehouse.dls_erase (t : BinaryTreeNode) (goal limit : Int) :
    Robot.depth_limited_search t goal limit
      = mapResult eraseCost (Warehouse.depth_limited_search t goal limit) := by
  have h := @Warehouse.loop_erase goal limit [Node.mk t none none 0] false
  simpa [Robot.depth_limited_search, Warehouse.depth_limited_search,
    eraseCost_mk_none] using h

theorem Warehouse.anyCut_init (t : BinaryTreeNode) (goal limit : Int) :
    Warehouse.anyCut goal limit [Node.mk t none none 0]
      = Robot.anyCut goal limit [Node.mk t none none 0] := by
  have h := @Warehouse.anyCut_erase goal limit [Node.mk t none none 0]
  simpa [eraseCost_mk_none] using h.symm

theorem mapResult_erase_found_iff {r : DLSResult} {Q : BinaryTreeNode → Prop} :
    (∃ g, mapResult eraseCost r = .found g ∧ Q g.state) ↔
      (∃ g, r = .found g ∧ Q g.state) := by
  cases r with
  | found g => simp [mapResult, eraseCost_state]
  | failure => simp [mapResult]
  | cutoff => simp [mapResult]

theorem mapResult_eq_cutoff {f : Node → Node} {r : DLSResult} :
    mapResult f r = .cutoff ↔ r = .cutoff := by
  cases r <;> simp [mapResult]

theorem mapResult_eq_failure {f : Node → Node} {r : DLSResult} :
    mapResult f r = .failure ↔ r = .failure := by
  cases r <;> simp [mapResult]

theorem mapResult_not_found {f : Node → Node} {r : DLSResult} :
    (∀ g, mapResult f r ≠ .found g) ↔ (∀ g, r ≠ .found g) := by
  cases r <;> simp [mapResult]

theorem robot_dls_example :
    Robot.depth_limited_search exampleTree 4 2 = .found exampleGoalNode := by
  simp [Robot.depth_limited_search, Robot.loop, Robot.expand, Robot.actions,
    exampleTree, exampleGoalNode, Node.depth, Node.state, BinaryTreeNode.value,
    BinaryTreeNode.left, BinaryTreeNode.right]

theorem robot_dls_example_cut :
    Robot.depth_limited_search exampleTree 99 1 = .cutoff := by
  simp [Robot.depth_limited_search, Robot.loop, Robot.expand, Robot.actions,
    exampleTree, Node.depth, Node.state, BinaryTreeNode.value,
    BinaryTreeNode.left, BinaryTreeNode.right]

/-! ## The claims -/

/-- C1: for every finite, cycle-free binary tree and every limit ≥ the
tree's height, `depth_limited_search` returns a goal node (a search node
whose state's value equals the configured goal) if and only if some node of
the tree carries the goal value.  Proved for both the robot and the
warehouse variant of the function. -/
theorem claim_C1_goal_found_iff_goal_present (t : BinaryTreeNode)
    (goal limit : Int) (h : (t.heightE : Int) ≤ limit) :
    ((∃ g, Robot.depth_limited_search t goal limit = .found g ∧
        g.state.value = goal) ↔ t.containsVal goal = true) ∧
    ((∃ g, Warehouse.depth_limited_search t goal limit = .found g ∧
        g.state.value = goal) ↔ t.containsVal goal = true) := by
  have hpre : ∀ n ∈ [Node.mk t none none 0],
      (n.depth : Int) + n.state.heightE ≤ limit := by
    intro n hn
    rcases List.mem_singleton.1 hn with rfl
    rw [Node.depth_mk_none, Node.state_mk]
    push_cast
    omega
  have hrobot : (∃ g, Robot.depth_limited_search t goal limit = .found g ∧
      g.state.value = goal) ↔ t.containsVal goal = true := by
    simp only [Robot.depth_limited_search]
    constructor
    · intro ⟨g, hg, _⟩
      rcases (Robot.loop_complete _ _ hpre).1 ⟨g, hg⟩ with ⟨n, hn, hc⟩
      rcases List.mem_singleton.1 hn with rfl
      rw [Node.state_mk] at hc
      exact hc
    · intro hc
      have hex : ∃ n ∈ [Node.mk t none none 0],
          n.state.containsVal goal = true :=
        ⟨Node.mk t none none 0, List.mem_singleton.2 rfl,
          by rw [Node.state_mk]; exact hc⟩
      rcases (Robot.loop_complete _ _ hpre).2 hex with ⟨g, hg⟩
      exact ⟨g, hg, Robot.loop_found_value _ _ g hg⟩
  refine ⟨hrobot, ?_⟩
  rw [← hrobot]
  have herase := Warehouse.dls_erase t goal limit
  rw [herase]
  exact (@mapResult_erase_found_iff
    (Warehouse.depth_limited_search t goal limit)
    (fun s => s.value = goal)).symm

/-- Witness for C1 on the demonstration tree with goal 4 and limit 2 (the
tree's height is 2 and the value 4 is present). -/
theorem claim_C1_witness :
    ((exampleTree.heightE : Int) ≤ 2) ∧
      (((∃ g, Robot.depth_limited_search exampleTree 4 2 = .found g ∧
          g.state.value = 4) ↔ exampleTree.containsVal 4 = true) ∧
       ((∃ g, Warehouse.depth_limited_search exampleTree 4 2 = .found g ∧
          g.state.value = 4) ↔ exampleTree.containsVal 4 = true)) :=
  ⟨by decide, claim_C1_goal_found_iff_goal_present exampleTree 4 2 (by decide)⟩

/-- C2: when `depth_limited_search` empties its frontier without finding a
goal node, it returns the `cutoff` sentinel iff at least one non-goal node
was popped at depth ≥ `limit` (recorded by the instrumentation `anyCut`),
and the `failure` sentinel iff no popped node was ever depth-cut.  Proved
for both the robot and the warehouse variant. -/
theorem claim_C2_failure_iff_no_cut (t : BinaryTreeNode) (goal limit : Int) :
    ((∀ g, Robot.depth_limited_search t goal limit ≠ .found g) →
      ((Robot.depth_limited_search t goal limit = .cutoff ↔
          Robot.anyCut goal limit [Node.mk t none none 0] = true) ∧
       (Robot.depth_limited_search t goal limit = .failure ↔
          Robot.anyCut goal limit [Node.mk t none none 0] = false))) ∧
    ((∀ g, Warehouse.depth_limited_search t goal limit ≠ .found g) →
      ((Warehouse.depth_limited_search t goal limit = .cutoff ↔
          Warehouse.anyCut goal limit [Node.mk t none none 0] = true) ∧
       (Warehouse.depth_limited_search t goal limit = .failure ↔
          Warehouse.anyCut goal limit [Node.mk t none none 0] = false))) := by
  have hR : (∀ g, Robot.depth_limited_search t goal limit ≠ .found g) →
      ((Robot.depth_limited_search t goal limit = .cutoff ↔
          Robot.anyCut goal limit [Node.mk t none none 0] = true) ∧
       (Robot.depth_limited_search t goal limit = .failure ↔
          Robot.anyCut goal limit [Node.mk t none none 0] = false)) := by
    intro h
    simp only [Robot.depth_limited_search] at h ⊢
    have hiff := Robot.loop_cutoff_iff_anyCut [Node.mk t none none 0] false h
    rw [Bool.false_or] at hiff
    refine ⟨hiff, ?_⟩
    cases hres : Robot.loop goal limit [Node.mk t none none 0] false with
    | found g => exact absurd hres (h g)
    | failure =>
      rw [hres] at hiff
      have hcc : Robot.anyCut goal limit [Node.mk t none none 0] = false := by
        rcases Bool.eq_false_or_eq_true
            (Robot.anyCut goal limit [Node.mk t none none 0]) with hb | hb
        · exact absurd (hiff.2 hb) (by simp)
        · exact hb
      simp [hcc]
    | cutoff =>
      rw [hres] at hiff
      have hcc := hiff.1 rfl
      simp [hcc]
  refine ⟨hR, ?_⟩
  intro h
  have hrf : ∀ g, Robot.depth_limited_search t goal limit ≠ .found g := by
    rw [Warehouse.dls_erase t goal limit]
    exact mapResult_not_found.2 h
  obtain ⟨h1, h2⟩ := hR hrf
  rw [Warehouse.dls_erase t goal limit, mapResult_eq_cutoff] at h1
  rw [Warehouse.dls_erase t goal limit, mapResult_eq_failure] at h2
  rw [Warehouse.anyCut_init t goal limit]
  exact ⟨h1, h2⟩

/-- Witness for C2: on the demonstration tree with the absent goal 99 and
limit 1 the robot search finds nothing, and it returns `cutoff` with
`anyCut` true. -/
theorem claim_C2_witness :
    (∀ g, Robot.depth_limited_search exampleTree 99 1 ≠ .found g) ∧
      (Robot.depth_limited_search exampleTree 99 1 = .cutoff ↔
        Robot.anyCut 99 1 [Node.mk exampleTree none none 0] = true) := by
  have hne : ∀ g, Robot.depth_limited_search exampleTree 99 1 ≠ .found g := by
    intro g h
    rw [robot_dls_example_cut] at h
    exact DLSResult.noConfusion h
  exact ⟨hne, ((claim_C2_failure_iff_no_cut exampleTree 99 1).1 hne).1⟩

/-- C3: `depth_limited_search_max` returns `None` when the problem has no
initial state; on a non-empty tree with `limit ≥ 0` it returns the maximum
payload over all tree nodes at depth at most `limit` (the list
`valuesUpTo limit t`, whose head is the root's value, so the root is always
counted, and in which nodes at depth exactly `limit` appear while their
children do not). -/
theorem claim_C3_max_within_limit :
    (∀ limit : Int, Investment.depth_limited_search_max none limit = none) ∧
    (∀ (t : BinaryTreeNode) (limit : Int), 0 ≤ limit →
      ∃ M, Investment.depth_limited_search_max (some t) limit = some M ∧
        M ∈ valuesUpTo limit t ∧ ∀ v ∈ valuesUpTo limit t, v ≤ M) := by
  constructor
  · intro limit
    rfl
  · intro t limit _
    obtain ⟨-, ih2, ih3⟩ :=
      @Investment.loop_spec limit [Node.mk t none none 0] none
    have hroot : ∀ v ∈ valuesUpTo limit t,
        ∃ M, Investment.loop limit [Node.mk t none none 0] none = some M ∧
          v ≤ M := by
      intro v hv
      refine ih2 (Node.mk t none none 0) (List.mem_singleton.2 rfl) v ?_
      rw [Node.depth_mk_none, Node.state_mk]
      simpa using hv
    obtain ⟨M, hM, hvM⟩ := hroot t.value (value_mem_valuesUpTo limit t)
    refine ⟨M, hM, ?_, ?_⟩
    · rcases ih3 M hM with hnone | ⟨n, hn, hmem⟩
      · exact absurd hnone (by simp)
      · rcases List.mem_singleton.1 hn with rfl
        rw [Node.depth_mk_none, Node.state_mk] at hmem
        simpa using hmem
    · intro v hv
      obtain ⟨M', hM', hvM'⟩ := hroot v hv
      rw [hM] at hM'
      cases hM'
      exact hvM'

/-- Witness for C3 on the investment demonstration tree with limit 2 (all
six nodes lie within depth 2; the maximum is 6). -/
theorem claim_C3_witness :
    (0 : Int) ≤ 2 ∧
      ∃ M, Investment.depth_limited_search_max (some investTree) 2 = some M ∧
        M ∈ valuesUpTo 2 investTree ∧ ∀ v ∈ valuesUpTo 2 investTree, v ≤ M :=
  ⟨by decide, claim_C3_max_within_limit.2 investTree 2 (by decide)⟩

/-- C4: every popped node is goal-tested before the depth-limit decision: a
frontier head that satisfies the goal test is returned immediately even at
depth exactly `limit`; concretely, on the demonstration tree with goal 4
and limit 2 the robot search returns the node with state 4 at depth 2, not
`cutoff`. -/
theorem claim_C4_goal_test_before_cut :
    (∀ (goal limit : Int) (node : Node) (rest : List Node) (cut : Bool),
        node.state.value = goal → (node.depth : Int) = limit →
        Robot.loop goal limit (node :: rest) cut = .found node) ∧
    (Robot.depth_limited_search exampleTree 4 2 = .found exampleGoalNode ∧
      exampleGoalNode.state.value = 4 ∧ exampleGoalNode.depth = 2) := by
  refine ⟨?_, robot_dls_example, rfl, rfl⟩
  intro goal limit node rest cut hval _
  simp [Robot.loop, hval]

/-- Witness for C4: a single-node tree whose root carries the goal value 7,
searched with limit 0 (the root's depth equals the limit). -/
theorem claim_C4_witness :
    (Node.mk (.mk 7 none none) none none 0).state.value = 7 ∧
      ((Node.mk (.mk 7 none none) none none 0).depth : Int) = 0 ∧
      Robot.loop 7 0 [Node.mk (.mk 7 none none) none none 0] false
        = .found (Node.mk (.mk 7 none none) none none 0) :=
  ⟨rfl, by simp [Node.depth_mk_none],
    claim_C4_goal_test_before_cut.1 7 0 (Node.mk (.mk 7 none none) none none 0)
      [] false rfl (by simp [Node.depth_mk_none])⟩

/-- C5: with `limit = 0` on a tree whose root does not satisfy the goal
test, `depth_limited_search` returns the `cutoff` sentinel and never
expands the root: the list of nodes ever pushed onto the frontier is empty.
Proved for both the robot and the warehouse variant. -/
theorem claim_C5_limit_zero_cutoff (t : BinaryTreeNode) (goal : Int)
    (h : t.value ≠ goal) :
    (Robot.depth_limited_search t goal 0 = .cutoff ∧
      Robot.pushed goal 0 [Node.mk t none none 0] = []) ∧
    (Warehouse.depth_limited_search t goal 0 = .cutoff ∧
      Warehouse.pushed goal 0 [Node.mk t none none 0] = []) := by
  refine ⟨⟨?_, ?_⟩, ?_, ?_⟩
  · simp [Robot.depth_limited_search, Robot.loop, Node.state_mk,
      Node.depth_mk_none, h]
  · simp [Robot.pushed, Node.state_mk, Node.depth_mk_none, h]
  · simp [Warehouse.depth_limited_search, Warehouse.loop, Node.state_mk,
      Node.depth_mk_none, h]
  · simp [Warehouse.pushed, Node.state_mk, Node.depth_mk_none, h]

/-- Witness for C5: the demonstration tree's root value 1 differs from the
goal 99. -/
theorem claim_C5_witness :
    exampleTree.value ≠ 99 ∧
      ((Robot.depth_limited_search exampleTree 99 0 = .cutoff ∧
          Robot.pushed 99 0 [Node.mk exampleTree none none 0] = []) ∧
       (Warehouse.depth_limited_search exampleTree 99 0 = .cutoff ∧
          Warehouse.pushed 99 0 [Node.mk exampleTree none none 0] = [])) :=
  ⟨by decide, claim_C5_limit_zero_cutoff exampleTree 99 (by decide)⟩

/-- C6 counterexample: in robot_vacuum_cleaner.py's `expand`, `path_cost` is
not passed to the child `Node`, so it stays at the default 0 rather than
`parent.path_cost + 1`: the child of the demonstration root has path cost
0, not 1. -/
theorem claim_C6_counterexample :
    ∃ c ∈ Robot.expand (Node.mk exampleTree none none 0),
      c.path_cost ≠ (Node.mk exampleTree none none 0).path_cost + 1 := by
  refine ⟨Node.mk (.mk 2 none (some (.mk 4 none none)))
      (some (Node.mk exampleTree none none 0))
      (some (.mk 2 none (some (.mk 4 none none)))) 0, ?_, ?_⟩
  · simp [Robot.expand, Robot.actions, exampleTree, Node.state_mk,
      BinaryTreeNode.left_mk, BinaryTreeNode.right_mk]
  · simp [Node.path_cost_mk]

/-- C6 as amended: in the warehouse `expand` every yielded child's path cost
is the parent's path cost plus 1, and consequently every node the warehouse
search ever creates (the root and every pushed node) has path cost equal to
its depth; in the robot (and investment) `expand` the `path_cost` argument
is omitted, so every yielded child's path cost is the constructor default
0. -/
theorem claim_C6_amended_path_cost :
    (∀ n : Node, ∀ c ∈ Warehouse.expand n, c.path_cost = n.path_cost + 1) ∧
    (∀ n : Node, ∀ c ∈ Robot.expand n, c.path_cost = 0) ∧
    (∀ (t : BinaryTreeNode) (goal limit : Int),
      ∀ p ∈ Node.mk t none none 0
          :: Warehouse.pushed goal limit [Node.mk t none none 0],
        p.path_cost = p.depth) := by
  refine ⟨fun n c hc => Warehouse.path_cost_of_mem_expand_warehouse hc,
    fun n c hc => Robot.path_cost_of_mem_expand_robot hc, ?_⟩
  intro t goal limit p hp
  rcases List.mem_cons.1 hp with rfl | hp'
  · rw [Node.path_cost_mk, Node.depth_mk_none]
  · refine Warehouse.pushed_cost_eq_depth [Node.mk t none none 0] ?_ p hp'
    intro n hn
    rcases List.mem_singleton.1 hn with rfl
    rw [Node.path_cost_mk, Node.depth_mk_none]

/-- Witness for the amended C6: the warehouse expansion of a two-node tree's
root yields the child with path cost 1 = 0 + 1. -/
theorem claim_C6_witness :
    (Node.mk (.mk 2 none none)
        (some (Node.mk (.mk 1 (some (.mk 2 none none)) none) none none 0))
        (some (.mk 2 none none)) 1)
      ∈ Warehouse.expand
          (Node.mk (.mk 1 (some (.mk 2 none none)) none) none none 0) ∧
    (Node.mk (.mk 2 none none)
        (some (Node.mk (.mk 1 (some (.mk 2 none none)) none) none none 0))
        (some (.mk 2 none none)) 1).path_cost
      = (Node.mk (.mk 1 (some (.mk 2 none none)) none) none none 0).path_cost
          + 1 := by
  have hmem : (Node.mk (.mk 2 none none)
      (some (Node.mk (.mk 1 (some (.mk 2 none none)) none) none none 0))
      (some (.mk 2 none none)) 1)
      ∈ Warehouse.expand
        (Node.mk (.mk 1 (some (.mk 2 none none)) none) none none 0) := by
    simp [Warehouse.expand, Warehouse.actions, Node.state_mk,
      Node.path_cost_mk, BinaryTreeNode.left_mk, BinaryTreeNode.right_mk]
  exact ⟨hmem, claim_C6_amended_path_cost.1 _ _ hmem⟩

/-- C7: for every limit ≥ 0, every node ever put on the frontier (the
initial root node and every pushed node) of `depth_limited_search` and of
`depth_limited_search_max` has depth at most `limit`: a node at depth ≥
`limit` is never expanded, so no node beyond the limit is ever enqueued. -/
theorem claim_C7_frontier_within_limit (t : BinaryTreeNode)
    (goal limit : Int) (h : 0 ≤ limit) :
    (∀ p ∈ Node.mk t none none 0
        :: Robot.pushed goal limit [Node.mk t none none 0],
      (p.depth : Int) ≤ limit) ∧
    (∀ p ∈ Node.mk t none none 0
        :: Warehouse.pushed goal limit [Node.mk t none none 0],
      (p.depth : Int) ≤ limit) ∧
    (∀ p ∈ Node.mk t none none 0
        :: Investment.pushed limit [Node.mk t none none 0],
      (p.depth : Int) ≤ limit) := by
  refine ⟨?_, ?_, ?_⟩ <;> intro p hp <;> rcases List.mem_cons.1 hp with rfl | hp'
  · rw [Node.depth_mk_none]; simpa using h
  · exact Robot.pushed_depth_le_robot [Node.mk t none none 0] p hp'
  · rw [Node.depth_mk_none]; simpa using h
  · exact Warehouse.pushed_depth_le_warehouse [Node.mk t none none 0] p hp'
  · rw [Node.depth_mk_none]; simpa using h
  · exact Investment.pushed_depth_le_invest [Node.mk t none none 0] p hp'

/-- Witness for C7 on the demonstration tree with goal 4 and limit 2,
applied to the initial root node. -/
theorem claim_C7_witness :
    (0 : Int) ≤ 2 ∧ ((Node.mk exampleTree none none 0).depth : Int) ≤ 2 :=
  ⟨by decide,
    (claim_C7_frontier_within_limit exampleTree 4 2 (by decide)).1
      (Node.mk exampleTree none none 0) (List.mem_cons_self _ _)⟩

/-- C8: every node the robot search returns as a goal is a well-formed path
witness: its parent chain is rooted at a parentless node whose state is the
problem's initial tree, each state along the chain is the left or right
child of its parent's state, and the returned value is neither of the two
sentinels — all of this for every integer `limit`; additionally, whenever
`limit ≥ 0`, the returned node's depth is at most `limit`. -/
theorem claim_C8_found_node_valid (t : BinaryTreeNode) (goal limit : Int)
    (g : Node)
    (h : Robot.depth_limited_search t goal limit = .found g) :
    ValidChain t g ∧
      Robot.depth_limited_search t goal limit ≠ .failure ∧
      Robot.depth_limited_search t goal limit ≠ .cutoff ∧
      (0 ≤ limit → (g.depth : Int) ≤ limit) := by
  have hchain : ValidChain t g := by
    refine Robot.loop_found_chain [Node.mk t none none 0] false ?_ g h
    intro n hn
    rcases List.mem_singleton.1 hn with rfl
    exact ValidChain_mk_none.2 rfl
  refine ⟨hchain, by rw [h]; exact fun hc => DLSResult.noConfusion hc,
    by rw [h]; exact fun hc => DLSResult.noConfusion hc, ?_⟩
  intro h0
  have hpre : ∀ n ∈ [Node.mk t none none 0],
      ValidChain t n ∧ (n.depth : Int) ≤ limit := by
    intro n hn
    rcases List.mem_singleton.1 hn with rfl
    refine ⟨ValidChain_mk_none.2 rfl, ?_⟩
    rw [Node.depth_mk_none]
    simpa using h0
  exact (Robot.loop_found_valid [Node.mk t none none 0] false hpre g h).2

/-- Witness for C8: concrete run on the demonstration tree with goal 4 and
limit 2, returning `exampleGoalNode`. -/
theorem claim_C8_witness :
    Robot.depth_limited_search exampleTree 4 2 = .found exampleGoalNode ∧
      (ValidChain exampleTree exampleGoalNode ∧
        Robot.depth_limited_search exampleTree 4 2 ≠ .failure ∧
        Robot.depth_limited_search exampleTree 4 2 ≠ .cutoff ∧
        ((0 : Int) ≤ 2 → (exampleGoalNode.depth : Int) ≤ 2)) :=
  ⟨robot_dls_example,
    claim_C8_found_node_valid exampleTree 4 2 exampleGoalNode
      robot_dls_example⟩

/-- C9: the robot and warehouse `depth_limited_search` functions are
equivalent: on every tree, goal and limit they produce the same outcome
classification — a found node with the same state, `failure`, or `cutoff` —
even though the warehouse `expand` additionally accumulates `path_cost`
(and the robot `actions` uses truthiness, which coincides with the
warehouse's explicit `is not None` test on tree nodes). -/
theorem claim_C9_robot_warehouse_equivalent (t : BinaryTreeNode)
    (goal limit : Int) :
    classify (Robot.depth_limited_search t goal limit)
      = classify (Warehouse.depth_limited_search t goal limit) := by
  rw [Warehouse.dls_erase t goal limit]
  cases Warehouse.depth_limited_search t goal limit with
  | found g => simp [mapResult, classify, eraseCost_state]
  | failure => rfl
  | cutoff => rfl

/-- C10: both `depth_limited_search` and `depth_limited_search_max`
terminate on every finite tree and every integer limit, including negative
limits: the fuel-indexed rendering of the `while frontier:` loop finishes
(returns `some`) once given enough fuel, and its value is the loop's
result. -/
theorem claim_C10_termination (t : BinaryTreeNode) (goal limit : Int) :
    (∃ k, Robot.loopFuel goal limit k [Node.mk t none none 0] false
        = some (Robot.depth_limited_search t goal limit)) ∧
    (∃ k, Investment.loopFuel limit k [Node.mk t none none 0] none
        = some (Investment.depth_limited_search_max (some t) limit)) := by
  constructor
  · exact ⟨frontierSize [Node.mk t none none 0] + 1,
      Robot.loopFuel_spec_robot [Node.mk t none none 0] false _ (by omega)⟩
  · exact ⟨frontierSize [Node.mk t none none 0] + 1,
      Investment.loopFuel_spec_invest [Node.mk t none none 0] none _ (by omega)⟩
